import Mathlib

/-!
Verification development for the MA_GAME tutoring backend.

This file gives a shallow embedding, in Lean 4, of the algorithmic core of
the repository:

* `app/utils/graph_utils.py` — the puzzle state-graph solver (state
  validation, legal-move generation, bounded BFS shortest path, best next
  move with a heuristic fallback);
* `app/utils/equation_utils.py` — belief-equation evaluation over a
  restricted arithmetic fragment of Python `eval`;
* `app/controllers/decision.py` — belief roster evaluation and winner
  selection;
* `app/controllers/base.py` — the substitution-context construction for
  belief evaluation.

Python lists of ints become `List Int`; Python dicts of floats become
association lists `List (String × ℚ)` with first-match lookup (Python dict
keys are unique, so first-match lookup agrees with dict lookup on every
dict that actually arises); Python floats become `ℚ` (all arithmetic in
the modelled fragment is exact); functions whose Python bodies catch all
exceptions and return a default are total functions returning that
default; unbounded `while` loops become fuel-indexed recursion, with the
fuel chosen strictly larger than the bound one can read off from the
source (so the fuel-exhausted branch is never taken on any input).
-/

namespace MAGame

/-- A puzzle state, as in the Python source: a list of machine integers,
with 0 marking the empty slot. -/
abbrev GameState := List Int

/-! ## graph_utils.py -/

/-- Embedding of `validate_game_state` (graph_utils.py).  The Python
function raises `GraphUtilsError` with a message; we return
`Except String Unit`.  The `isinstance(state, list)` and
`all(isinstance(x, int))` checks are vacuous here because `GameState`
is `List Int` by type. -/
def validate_game_state (state : GameState) (expected_length : Nat) :
    Except String Unit :=
  if state.length ≠ expected_length then
    .error ("State must have " ++ toString expected_length ++ " positions, got "
      ++ toString state.length)
  else if ¬ state.contains 0 then
    .error "State must contain exactly one empty position (0)"
  else if state.count 0 ≠ 1 then
    .error "State must contain exactly one empty position (0)"
  else
    .ok ()

/-- Embedding of `is_left_frog` (graph_utils.py): `1 <= frog <= total_left`. -/
def is_left_frog (frog : Int) (total_left : Nat) : Bool :=
  decide (1 ≤ frog) && decide (frog ≤ (total_left : Int))

/-- Embedding of `is_right_frog` (graph_utils.py):
`total_left < frog <= total_left + total_right`. -/
def is_right_frog (frog : Int) (total_left total_right : Nat) : Bool :=
  decide ((total_left : Int) < frog) &&
    decide (frog ≤ (total_left : Int) + (total_right : Int))

/-- Embedding of `is_valid_move` (graph_utils.py).  Indices are `Int`
because the caller forms `empty_index + offset` with negative offsets;
the function starts with the same bounds check as the source and then
indexes with `List.getD` (in range by the check, so the default is
irrelevant). -/
def is_valid_move (state : GameState) (i j : Int)
    (total_left total_right : Nat) : Bool :=
  -- the Python locals `frog = state[i]`, `direction = j - i` and
  -- `middle_pos = i ± 1` are inlined below
  if ¬ (0 ≤ i ∧ i < (state.length : Int) ∧ 0 ≤ j ∧ j < (state.length : Int)) then
    false
  else if state.getD i.toNat 0 = 0 then false
  else if ¬ ((j - i).natAbs = 1 ∨ (j - i).natAbs = 2) then false
  else if state.getD j.toNat 0 ≠ 0 then false
  else if decide (j - i > 0) && is_left_frog (state.getD i.toNat 0) total_left then
    if (j - i).natAbs = 2 then
      -- jump: the intermediate slot must hold a frog of the other team
      decide (i + 1 < (state.length : Int)) &&
        !(is_left_frog (state.getD (i + 1).toNat 0) total_left) &&
        decide (state.getD (i + 1).toNat 0 ≠ 0)
    else true
  else if decide (j - i < 0) &&
      is_right_frog (state.getD i.toNat 0) total_left total_right then
    if (j - i).natAbs = 2 then
      decide (0 ≤ i - 1) &&
        !(is_right_frog (state.getD (i - 1).toNat 0) total_left total_right) &&
        decide (state.getD (i - 1).toNat 0 ≠ 0)
    else true
  else false

/-- The simultaneous swap
`new[empty], new[i] = state[i], state[empty]` from `generate_neighbors`:
both reads are from the original list. -/
def swapPositions (state : GameState) (a b : Nat) : GameState :=
  (state.set a (state.getD b 0)).set b (state.getD a 0)

/-- Embedding of `generate_neighbors` (graph_utils.py).  `state.index(0)`
raises `ValueError` when there is no 0, which the source catches and turns
into `[]`; here that is the `none` branch of `findIdx?`. -/
def generate_neighbors (state : GameState) (total_left total_right : Nat) :
    List GameState :=
  match state.findIdx? (fun x => x == 0) with
  | none => []
  | some empty_index =>
    ([-2, -1, 1, 2] : List Int).filterMap (fun offset =>
      let i : Int := (empty_index : Int) + offset
      if 0 ≤ i ∧ i < (state.length : Int) then
        if is_valid_move state i (empty_index : Int) total_left total_right then
          some (swapPositions state empty_index i.toNat)
        else none
      else none)

/-- The BFS loop of `shortest_path_length` (graph_utils.py): queue of
(state, depth) pairs starting from depth 1, a visited list, goal test
before the visited/depth test, children enqueued with depth + 1.  The
fuel argument only reflects that the Python loop terminates (each state
is expanded at most once and expansion stops past `max_depth`); the
`fuel = 0` branch is never taken for the fuel used below. -/
def bfs_spl (total_left total_right : Nat) (goal : GameState) (max_depth : Nat) :
    Nat → List (GameState × Nat) → List GameState → Option Nat
  | 0, _, _ => none
  | _ + 1, [], _ => none
  | fuel + 1, (current, depth) :: queue, visited =>
    if current = goal then some depth
    else if current ∈ visited ∨ depth > max_depth then
      bfs_spl total_left total_right goal max_depth fuel queue visited
    else
      bfs_spl total_left total_right goal max_depth fuel
        (queue ++ (generate_neighbors current total_left total_right).map
          (fun n => (n, depth + 1)))
        (current :: visited)

/-- Embedding of `shortest_path_length` (graph_utils.py).  Validation
errors are caught by the source's `try/except`, which returns `None`. -/
def shortest_path_length (total_left total_right : Nat)
    (start_state goal_state : GameState) (max_depth : Nat := 100) : Option Nat :=
  match validate_game_state start_state (total_left + total_right + 1) with
  | .error _ => none
  | .ok _ =>
    match validate_game_state goal_state (total_left + total_right + 1) with
    | .error _ => none
    | .ok _ =>
      bfs_spl total_left total_right goal_state max_depth 100000
        [(start_state, 1)] []

/-- Embedding of `possible_moves` (graph_utils.py): validation errors are
caught and turned into `[]`. -/
def possible_moves (total_left total_right : Nat) (initial_state : GameState) :
    List GameState :=
  match validate_game_state initial_state (total_left + total_right + 1) with
  | .error _ => []
  | .ok _ => generate_neighbors initial_state total_left total_right

/-- The `build_graph` BFS loop inside `best_next_move` (graph_utils.py).
The graph is an insertion-ordered association list (a Python
`defaultdict`); `iteration_count` counts only newly expanded states and
the loop stops at `max_iterations = 1000`, exactly as in the source.
Pops of already-visited states do not increase the counter, but the total
number of pops is bounded by the total number of enqueues, which is at
most `1 + 4 * 1000`; the fuel used below (10000) therefore always
exceeds the actual number of loop iterations and the `fuel = 0` branch
is never taken. -/
def build_graph_loop (total_left total_right : Nat) :
    Nat → Nat → List GameState → List GameState →
    List (GameState × List GameState) → List (GameState × List GameState)
  | 0, _, _, _, graph => graph
  | fuel + 1, iteration_count, queue, visited, graph =>
    if iteration_count ≥ 1000 then graph
    else
      match queue with
      | [] => graph
      | current :: rest =>
        if current ∈ visited then
          build_graph_loop total_left total_right fuel iteration_count rest
            visited graph
        else
          let neighbors := generate_neighbors current total_left total_right
          let visited' := current :: visited
          build_graph_loop total_left total_right fuel (iteration_count + 1)
            (rest ++ neighbors.filter (fun n => decide (n ∉ visited')))
            visited' (graph ++ [(current, neighbors)])

/-- Embedding of the inner `build_graph` of `best_next_move`
(graph_utils.py): BFS from the start state, recording each expanded
state's neighbor list. -/
def build_graph (start_state : GameState) (total_left total_right : Nat) :
    List (GameState × List GameState) :=
  build_graph_loop total_left total_right 10000 0 [start_state] [] []

/-- Successor function of the `networkx.DiGraph` built from the graph
dictionary: edges of a node are exactly its recorded neighbor list
(nodes that were enqueued but never expanded have no outgoing edges). -/
def graph_succ (graph : List (GameState × List GameState)) (u : GameState) :
    List GameState :=
  ((graph.find? (fun p => p.1 == u)).map Prod.snd).getD []

/-- BFS for `nx.shortest_path` over the digraph, as a queue of reversed
paths.  Only used through `nx_shortest_path` below. -/
def nx_bfs (succ : GameState → List GameState) (target : GameState) :
    Nat → List (List GameState) → List GameState → Option (List GameState)
  | 0, _, _ => none
  | _ + 1, [], _ => none
  | fuel + 1, path :: queue, visited =>
    match path with
    | [] => none
    | u :: _ =>
      if u = target then some path.reverse
      else if u ∈ visited then nx_bfs succ target fuel queue visited
      else
        nx_bfs succ target fuel
          (queue ++ (succ u).map (fun v => v :: path)) (u :: visited)

/-- Model of `networkx.shortest_path(G, source, target)` on the digraph
built by `best_next_move`.  NetworkX's bidirectional search special-cases
`source == target`, returning `[source]`; otherwise it returns a
shortest path as a node list, or raises `NetworkXNoPath` (here `none`).
`best_next_move` treats `NetworkXNoPath` and any other exception from
this call identically (heuristic fallback), so collapsing both into
`none` is faithful. -/
def nx_shortest_path (graph : List (GameState × List GameState))
    (source target : GameState) : Option (List GameState) :=
  if source = target then some [source]
  else nx_bfs (graph_succ graph) target 100000 [[source]] []

/-- The Hamming distance used by the heuristic fallback of
`best_next_move`: `sum(1 for a, b in zip(s, goal_state) if a != b)`. -/
def hamming (s goal : GameState) : Nat :=
  (s.zip goal).countP (fun p => p.1 != p.2)

/-- Python's `min(neighbors, key = hamming distance to goal)`: the first
element attaining the minimal key (Python `min` replaces the current best
only on a strictly smaller key). -/
def min_by_hamming (goal : GameState) : List GameState → Option GameState
  | [] => none
  | x :: xs =>
    some (xs.foldl (fun best n =>
      if hamming n goal < hamming best goal then n else best) x)

/-- Embedding of `best_next_move` (graph_utils.py), search part, for
the team sizes computed by the outer function.  After the graph build,
the source checks `if not graph_dict` (empty graph → heuristic
fallback), then asks networkx for a shortest path: a path of length > 1
yields its second node, a path of length 1 yields `None`, and no path
yields the heuristic fallback (first neighbor of minimal Hamming
distance to the goal, `None` if there are no neighbors). -/
def bnm_search (initial_state goal_state : GameState)
    (total_left total_right : Nat) : Option GameState :=
  if build_graph initial_state total_left total_right = [] then
    match generate_neighbors initial_state total_left total_right with
    | [] => none
    | ns => min_by_hamming goal_state ns
  else
    match nx_shortest_path (build_graph initial_state total_left total_right)
        initial_state goal_state with
    | some path =>
      if path.length > 1 then some (path.getD 1 []) else none
    | none =>
      match generate_neighbors initial_state total_left total_right with
      | [] => none
      | ns => min_by_hamming goal_state ns

/-- Embedding of `best_next_move` (graph_utils.py), outer part: the
length check and the defensive validations (whose exceptions the source
catches, returning `None`), then the team sizes
`total_left = total_frogs // 2`, `total_right = total_frogs - total_left`
with `total_frogs = len(initial_state) - 1`, and the search of
`bnm_search` above. -/
def best_next_move (initial_state goal_state : GameState) : Option GameState :=
  if initial_state.length ≠ goal_state.length then none
  else
    match validate_game_state initial_state initial_state.length with
    | .error _ => none
    | .ok _ =>
      match validate_game_state goal_state initial_state.length with
      | .error _ => none
      | .ok _ =>
        bnm_search initial_state goal_state ((initial_state.length - 1) / 2)
          ((initial_state.length - 1) - (initial_state.length - 1) / 2)

/-! ## equation_utils.py

`evaluate_equation` calls Python `eval(equation, {}, context)` inside a
`try/except` that turns any exception into the string
`"Error al evaluar la ecuación: {e}"`.  The equations this system feeds
to `eval` are arithmetic expressions over numeric literals, context
variables and `+ - * / ( )` (plus leftover `${...}` placeholders, which
Python rejects as a syntax error because of the `$`).  We embed `eval`
on exactly that fragment: a tokenizer and recursive-descent parser with
Python's precedence and left associativity, and an evaluator over exact
rationals; `NameError`, `ZeroDivisionError` and `SyntaxError` are the
possible exceptions. -/

/-- The exceptions Python `eval` can raise on the modelled fragment. -/
inductive PyErr
  | syntaxError
  | nameError (n : String)
  | zeroDivision
deriving DecidableEq

/-- The exception text interpolated into the caught-error string (the
model keeps the Python messages up to quoting). -/
def errText : PyErr → String
  | .syntaxError => "invalid syntax"
  | .nameError n => "name " ++ n ++ " is not defined"
  | .zeroDivision => "division by zero"

/-- A Python value as produced by `evaluate_equation`: a float (exact
rational here) or a string. -/
inductive PyVal
  | num (q : ℚ)
  | str (s : String)
deriving DecidableEq

/-- The `context` dict of floats, as an association list with
first-match lookup (Python dict keys are unique). -/
abbrev EvalContext := List (String × ℚ)

/-- Tokens of the modelled expression fragment. -/
inductive Tok
  | num (q : ℚ)
  | ident (s : String)
  | plus | minus | star | slash | lparen | rparen
deriving DecidableEq

/-- Value of a digit string. -/
def digitsToNat (ds : List Char) : Nat :=
  ds.foldl (fun acc c => 10 * acc + (c.toNat - 48)) 0

/-- Value of the fractional digits after a decimal point. -/
def fracToRat (ds : List Char) : ℚ :=
  (digitsToNat ds : ℚ) / ((10 : ℚ) ^ ds.length)

/-- Python identifier start character (ASCII fragment). -/
def isIdentStart (c : Char) : Bool := c.isAlpha || c = '_'

/-- Python identifier continuation character (ASCII fragment). -/
def isIdentChar (c : Char) : Bool := c.isAlphanum || c = '_'

/-- Tokenizer for the expression fragment.  Any character outside the
fragment — in particular `$` from a leftover placeholder — is a
`SyntaxError`, as in CPython.  Each step consumes at least one input
character, so fuel = input length + 1 never runs out. -/
def tokenize : Nat → List Char → Except PyErr (List Tok)
  | 0, _ => .error .syntaxError
  | _ + 1, [] => .ok []
  | fuel + 1, c :: cs =>
    if c = ' ' then tokenize fuel cs
    else if c = '+' then (tokenize fuel cs).map (fun ts => .plus :: ts)
    else if c = '-' then (tokenize fuel cs).map (fun ts => .minus :: ts)
    else if c = '*' then (tokenize fuel cs).map (fun ts => .star :: ts)
    else if c = '/' then (tokenize fuel cs).map (fun ts => .slash :: ts)
    else if c = '(' then (tokenize fuel cs).map (fun ts => .lparen :: ts)
    else if c = ')' then (tokenize fuel cs).map (fun ts => .rparen :: ts)
    else if c.isDigit then
      let ds := (c :: cs).takeWhile Char.isDigit
      let rest := (c :: cs).dropWhile Char.isDigit
      match rest with
      | '.' :: rest' =>
        let fs := rest'.takeWhile Char.isDigit
        let rest'' := rest'.dropWhile Char.isDigit
        (tokenize fuel rest'').map (fun ts =>
          .num ((digitsToNat ds : ℚ) + fracToRat fs) :: ts)
      | _ => (tokenize fuel rest).map (fun ts => .num ((digitsToNat ds : ℚ)) :: ts)
    else if isIdentStart c then
      let is := (c :: cs).takeWhile isIdentChar
      let rest := (c :: cs).dropWhile isIdentChar
      (tokenize fuel rest).map (fun ts => .ident (String.mk is) :: ts)
    else .error .syntaxError

/-- Abstract syntax of the modelled expression fragment. -/
inductive PExpr
  | num (q : ℚ)
  | var (s : String)
  | add (a b : PExpr)
  | sub (a b : PExpr)
  | mul (a b : PExpr)
  | div (a b : PExpr)
deriving DecidableEq

/-- Nonterminal being parsed; makes the recursive-descent parser a
single function structurally recursive on fuel. -/
inductive ParseJob
  | expr
  | exprRest (acc : PExpr)
  | term
  | termRest (acc : PExpr)
  | factor

/-- Recursive-descent parser: `expr := term (('+'|'-') term)*`,
`term := factor (('*'|'/') factor)*`,
`factor := number | identifier | '-' factor | '(' expr ')'`, with
Python's precedence and left associativity (unary minus is encoded as
`0 - x`, which is equal on rationals). -/
def parseRun : Nat → ParseJob → List Tok → Except PyErr (PExpr × List Tok)
  | 0, _, _ => .error .syntaxError
  | fuel + 1, .expr, ts => do
    let (t, ts') ← parseRun fuel .term ts
    parseRun fuel (.exprRest t) ts'
  | fuel + 1, .exprRest acc, .plus :: ts => do
    let (t, ts') ← parseRun fuel .term ts
    parseRun fuel (.exprRest (.add acc t)) ts'
  | fuel + 1, .exprRest acc, .minus :: ts => do
    let (t, ts') ← parseRun fuel .term ts
    parseRun fuel (.exprRest (.sub acc t)) ts'
  | _ + 1, .exprRest acc, ts => .ok (acc, ts)
  | fuel + 1, .term, ts => do
    let (f, ts') ← parseRun fuel .factor ts
    parseRun fuel (.termRest f) ts'
  | fuel + 1, .termRest acc, .star :: ts => do
    let (f, ts') ← parseRun fuel .factor ts
    parseRun fuel (.termRest (.mul acc f)) ts'
  | fuel + 1, .termRest acc, .slash :: ts => do
    let (f, ts') ← parseRun fuel .factor ts
    parseRun fuel (.termRest (.div acc f)) ts'
  | _ + 1, .termRest acc, ts => .ok (acc, ts)
  | _ + 1, .factor, .num q :: ts => .ok (.num q, ts)
  | _ + 1, .factor, .ident s :: ts => .ok (.var s, ts)
  | fuel + 1, .factor, .minus :: ts =>
    (parseRun fuel .factor ts).map (fun p => (PExpr.sub (.num 0) p.1, p.2))
  | fuel + 1, .factor, .lparen :: ts => do
    let (e, r) ← parseRun fuel .expr ts
    match r with
    | .rparen :: r' => .ok (e, r')
    | _ => .error .syntaxError
  | _ + 1, .factor, _ => .error .syntaxError

/-- Evaluator for the fragment: left operand first, then right, then the
operation, as CPython does; division by zero raises. -/
def pyEvalExpr : PExpr → EvalContext → Except PyErr ℚ
  | .num q, _ => .ok q
  | .var s, ctx =>
    match ctx.lookup s with
    | some v => .ok v
    | none => .error (.nameError s)
  | .add a b, ctx => do
    let x ← pyEvalExpr a ctx
    let y ← pyEvalExpr b ctx
    pure (x + y)
  | .sub a b, ctx => do
    let x ← pyEvalExpr a ctx
    let y ← pyEvalExpr b ctx
    pure (x - y)
  | .mul a b, ctx => do
    let x ← pyEvalExpr a ctx
    let y ← pyEvalExpr b ctx
    pure (x * y)
  | .div a b, ctx => do
    let x ← pyEvalExpr a ctx
    let y ← pyEvalExpr b ctx
    if y = 0 then .error .zeroDivision else pure (x / y)

/-- Model of `eval(equation, {}, context)` on the fragment: tokenize,
parse a full expression (trailing tokens are a syntax error), evaluate. -/
def pyEvalString (equation : String) (ctx : EvalContext) : Except PyErr ℚ := do
  let ts ← tokenize (equation.length + 1) equation.data
  let (e, rest) ← parseRun (4 * ts.length + 8) .expr ts
  match rest with
  | [] => pyEvalExpr e ctx
  | _ => .error .syntaxError

/-- Embedding of `evaluate_equation` (equation_utils.py): any exception
from `eval` is caught and turned into an error-message string
(`"Error al evaluar la ecuación: {e}"`, rendered here in ASCII), which
is returned as the result. -/
def evaluate_equation (equation : String) (context : EvalContext) : PyVal :=
  match pyEvalString equation context with
  | .ok q => .num q
  | .error e => .str ("Error al evaluar la ecuacion: " ++ errText e)

/-- Python `str` of a context value, used when substituting placeholders
(models `str(float)` on the values that occur; no theorem depends on the
exact rendering). -/
def pyFloatRepr (q : ℚ) : String :=
  if q.den = 1 then toString q.num ++ ".0" else toString q

/-- Non-greedy scan to the first `}`: returns the characters before it
and the rest after it, or `none` when there is no `}` (then the regex
does not match at this position). -/
def scanBrace : List Char → Option (List Char × List Char)
  | [] => none
  | c :: cs =>
    if c = '\x7d' then some ([], cs)
    else (scanBrace cs).map (fun p => (c :: p.1, p.2))

/-- Character-level body of `replace_placeholders_in_equation`:
left-to-right scan for the non-greedy regex `\$\x7b(.*?)\x7d`; each match
is replaced by `str(context[name])` when bound, and kept verbatim when
unbound (`context.get(var_name, match.group(0))`); scanning resumes
after the match.  Each step consumes at least one character, so
fuel = input length + 1 never runs out. -/
def replaceChars (context : EvalContext) : Nat → List Char → List Char
  | 0, cs => cs
  | _ + 1, [] => []
  | fuel + 1, '$' :: '\x7b' :: cs =>
    (match scanBrace cs with
     | some (nameChars, rest) =>
       (match context.lookup (String.mk nameChars) with
        | some v => (pyFloatRepr v).data ++ replaceChars context fuel rest
        | none =>
          '$' :: '\x7b' :: (nameChars ++ '\x7d' :: replaceChars context fuel rest))
     | none => '$' :: replaceChars context fuel ('\x7b' :: cs))
  | fuel + 1, c :: cs => c :: replaceChars context fuel cs

/-- Embedding of `replace_placeholders_in_equation` (equation_utils.py). -/
def replace_placeholders_in_equation (equation : String) (context : EvalContext) :
    String :=
  String.mk (replaceChars context (equation.length + 1) equation.data)

/-! ## decision.py -/

/-- What `belief.evaluate_belief(game_id, config)` does for one belief in
`DecisionController.evaluate_beliefs`: either it raises (any exception)
or it returns a value — a float, or an error-message string when the
belief's equation failed inside `evaluate_equation` (which never
raises). -/
inductive BeliefOutcome
  | raises
  | returns (v : PyVal)
deriving DecidableEq

/-- One belief of the roster, by name, together with the outcome of its
evaluation for the game under decision. -/
structure BeliefEntry where
  name : String
  outcome : BeliefOutcome
deriving DecidableEq

/-- Embedding of `DecisionController.evaluate_beliefs` (decision.py):
beliefs whose evaluation raises are skipped (`except ... continue`);
if nothing survives, a `BeliefEvaluationError` is raised (and re-raised
by the outer handler).  The consolidated logging cannot fail observably
(its formatting errors are caught and fall back to a plain log). -/
def evaluate_beliefs (beliefs : List BeliefEntry) :
    Except String (List (String × PyVal)) :=
  if beliefs.filterMap (fun b =>
      match b.outcome with
      | .raises => none
      | .returns v => some (b.name, v)) = [] then
    .error "Failed to evaluate beliefs: No beliefs could be evaluated successfully"
  else
    .ok (beliefs.filterMap (fun b =>
      match b.outcome with
      | .raises => none
      | .returns v => some (b.name, v)))

/-- The tie-break priority table of `DecisionController.make_decision`
(decision.py): `priority.get(name, 99)`. -/
def priority (name : String) : Nat :=
  if name = "Demonstrate" then 0
  else if name = "Ask" then 1
  else if name = "Explain" then 2
  else if name = "Advice" then 3
  else if name = "Feedback" then 4
  else 99

/-- Python `float(value)` applied to a belief value: floats pass
through; strings are parsed as float literals (an error-message string
raises `ValueError`). -/
def pyFloatOf : PyVal → Except Unit ℚ
  | .num q => .ok q
  | .str s =>
    match tokenize (s.length + 1) s.data with
    | .ok [.num q] => .ok q
    | .ok [.minus, .num q] => .ok (-q)
    | _ => .error ()

/-- The `min` key `lambda x: (-float(x['value']), priority.get(x['name'], 99))`
of `make_decision`; computing it can raise (from `float`). -/
def decisionKey (x : String × PyVal) : Except Unit (ℚ × Nat) :=
  (pyFloatOf x.2).map (fun q => (-q, priority x.1))

/-- Python's `<` on the key tuples (lexicographic). -/
def keyLt (a b : ℚ × Nat) : Bool :=
  decide (a.1 < b.1) || (decide (a.1 = b.1) && decide (a.2 < b.2))

/-- Tail of Python `min` with a key function: keep the current best,
replace it only on a strictly smaller key, propagate the first exception
raised while computing a key. -/
def python_min_go : List (String × PyVal) → (String × PyVal) → (ℚ × Nat) →
    Except Unit (String × PyVal)
  | [], best, _ => .ok best
  | y :: ys, best, kb =>
    match decisionKey y with
    | .error e => .error e
    | .ok ky =>
      if keyLt ky kb then python_min_go ys y ky else python_min_go ys best kb

/-- Python `min(evaluated_beliefs, key=...)`. -/
def python_min : List (String × PyVal) → Except Unit (String × PyVal)
  | [] => .error ()
  | x :: xs =>
    match decisionKey x with
    | .error e => .error e
    | .ok kx => python_min_go xs x kx

/-- Embedding of `DecisionController.make_decision` (decision.py): the
winner is the belief minimizing `(-float(value), priority)`; any
exception inside (including `ValueError` from `float` on a string value)
is caught and re-raised as a `BeliefEvaluationError`. -/
def make_decision (beliefs : List BeliefEntry) : Except String String :=
  match evaluate_beliefs beliefs with
  | .error e => .error e
  | .ok evaluated =>
    match python_min evaluated with
    | .error _ => .error "Failed to make decision"
    | .ok best => .ok best.1

/-! ## base.py — the substitution context of `BeliefController.evaluate_belief` -/

/-- The normalization of one metric value in `evaluate_belief`
(base.py): `(value / max_value if max_value > 0 else 0) * weight`. -/
def normalized_value (value max_value weight : ℚ) : ℚ :=
  (if max_value > 0 then value / max_value else 0) * weight

/-- The `normalized_values` dict built by `evaluate_belief` (base.py):
for each metric variable, `max_value = standardization.get(var + "_max", 1)`,
`weight = adaptive_weights.get(var, 1.0)`, value normalized and
weighted as above.  Mapping over the entries preserves the key order of
`self.values`. -/
def normalized_values (values weights standardization : EvalContext) :
    EvalContext :=
  values.map (fun p =>
    let max_value := (standardization.lookup (p.1 ++ "_max")).getD 1
    let weight := (weights.lookup p.1).getD 1
    (p.1, normalized_value p.2 max_value weight))

/-- Lookup in `context = {**weights, **normalized_values}` (base.py):
entries of `normalized_values` shadow entries of `weights` with the same
key. -/
def belief_context (values weights standardization : EvalContext)
    (var : String) : Option ℚ :=
  match (normalized_values values weights standardization).lookup var with
  | some v => some v
  | none => weights.lookup var

/-! ## Spec-side definitions

The following two definitions are written from the words of the
specification (data-model invariant of §3 and the legal-move description
of §4.1 / claim C5), to be compared with the source-derived
`generate_neighbors`; they are deliberately not derived from the code. -/

/-- A valid puzzle state for team sizes `total_left`/`total_right`, per
the spec's data model: correct length, exactly one zero, and every
non-zero entry a team piece in `[1, total_left + total_right]`. -/
def ValidState (state : GameState) (total_left total_right : Nat) : Prop :=
  state.length = total_left + total_right + 1 ∧
  state.count 0 = 1 ∧
  ∀ x ∈ state, x ≠ 0 → 1 ≤ x ∧ x ≤ (total_left : Int) + (total_right : Int)

/-- Two pieces belong to opposing teams. -/
def opposite_team (a b : Int) (total_left total_right : Nat) : Prop :=
  (is_left_frog a total_left ∧ is_right_frog b total_left total_right) ∨
  (is_right_frog a total_left total_right ∧ is_left_frog b total_left)

/-- The legality condition of claim C5, stated from the spec's words:
the piece at `i` moving into the empty slot `e` is legal exactly when it
is non-zero, its team-forward direction points from `i` to `e`
(left team toward higher indices, right team toward lower), and a
distance-2 jump crosses a piece of the opposing team. -/
def legal_move_spec (state : GameState) (total_left total_right e i : Nat) :
    Prop :=
  state.getD i 0 ≠ 0 ∧
  ((is_left_frog (state.getD i 0) total_left ∧ i < e) ∨
   (is_right_frog (state.getD i 0) total_left total_right ∧ e < i)) ∧
  ((i + 2 = e ∨ e + 2 = i) →
    opposite_team (state.getD i 0) (state.getD ((i + e) / 2) 0)
      total_left total_right)

/-! ## Helper lemmas -/

lemma mem_of_count_one {s : GameState} (h : s.count 0 = 1) : (0 : Int) ∈ s := by
  have hpos : 0 < s.count 0 := by omega
  exact List.count_pos_iff.mp hpos

lemma validate_ok {s : GameState} {n : Nat} (hlen : s.length = n)
    (hcount : s.count 0 = 1) : validate_game_state s n = .ok () := by
  unfold validate_game_state
  simp [hlen, hcount, mem_of_count_one hcount]

lemma build_graph_loop_prefix (total_left total_right : Nat) :
    ∀ (fuel iteration_count : Nat) (queue visited : List GameState)
      (graph : List (GameState × List GameState)),
      ∃ rest, build_graph_loop total_left total_right fuel iteration_count
        queue visited graph = graph ++ rest := by
  intro fuel
  induction fuel with
  | zero =>
    intro c q v g
    exact ⟨[], by simp [build_graph_loop]⟩
  | succ fuel ih =>
    intro c q v g
    by_cases hc : c ≥ 1000
    · exact ⟨[], by simp [build_graph_loop, hc]⟩
    · cases q with
      | nil => exact ⟨[], by simp [build_graph_loop, hc]⟩
      | cons cur rest =>
        by_cases hv : cur ∈ v
        · obtain ⟨r, hr⟩ := ih c rest v g
          exact ⟨r, by simp [build_graph_loop, hc, hv, hr]⟩
        · obtain ⟨r, hr⟩ := ih (c + 1)
            (rest ++ (generate_neighbors cur total_left total_right).filter
              (fun n => decide (n ∉ cur :: v)))
            (cur :: v)
            (g ++ [(cur, generate_neighbors cur total_left total_right)])
          refine ⟨(cur, generate_neighbors cur total_left total_right) :: r, ?_⟩
          simp only [build_graph_loop, if_neg hc, if_neg hv]
          rw [hr, List.append_assoc]
          rfl

lemma build_graph_step (s : GameState) (total_left total_right : Nat) :
    build_graph s total_left total_right =
      build_graph_loop total_left total_right 9999 1
        ((generate_neighbors s total_left total_right).filter
          (fun n => decide (n ∉ [s])))
        [s] [(s, generate_neighbors s total_left total_right)] := by
  unfold build_graph
  rw [show (10000 : Nat) = 9999 + 1 from rfl]
  rw [build_graph_loop]
  simp

lemma build_graph_ne_nil (s : GameState) (total_left total_right : Nat) :
    build_graph s total_left total_right ≠ [] := by
  rw [build_graph_step]
  obtain ⟨r, hr⟩ := build_graph_loop_prefix total_left total_right 9999 1
    ((generate_neighbors s total_left total_right).filter
      (fun n => decide (n ∉ [s])))
    [s] [(s, generate_neighbors s total_left total_right)]
  rw [hr]
  simp

lemma hamming_foldl_spec (goal : GameState) :
    ∀ (xs : List GameState) (x b : GameState),
      xs.foldl (fun best n =>
        if hamming n goal < hamming best goal then n else best) x = b →
      (∃ pre post, x :: xs = pre ++ b :: post ∧
        ∀ m ∈ pre, hamming b goal < hamming m goal) ∧
      ∀ m ∈ x :: xs, hamming b goal ≤ hamming m goal := by
  intro xs
  induction xs with
  | nil =>
    intro x b hb
    simp only [List.foldl_nil] at hb
    subst hb
    exact ⟨⟨[], [], rfl, by simp⟩, by simp⟩
  | cons y ys ih =>
    intro x b hb
    simp only [List.foldl_cons] at hb
    by_cases hxy : hamming y goal < hamming x goal
    · rw [if_pos hxy] at hb
      obtain ⟨⟨pre, post, hdec, hpre⟩, hle⟩ := ih y b hb
      have hby : hamming b goal ≤ hamming y goal := hle y (by simp)
      constructor
      · refine ⟨x :: pre, post, ?_, ?_⟩
        · rw [List.cons_append, ← hdec]
        · intro m hm
          rcases List.mem_cons.mp hm with hmx | hmp
          · subst hmx
            omega
          · exact hpre m hmp
      · intro m hm
        rcases List.mem_cons.mp hm with hmx | hmy
        · subst hmx
          omega
        · exact hle m hmy
    · rw [if_neg hxy] at hb
      obtain ⟨⟨pre, post, hdec, hpre⟩, hle⟩ := ih x b hb
      have hbx : hamming b goal ≤ hamming x goal := hle x (by simp)
      have hxyle : hamming x goal ≤ hamming y goal := by omega
      constructor
      · cases pre with
        | nil =>
          simp only [List.nil_append] at hdec
          injection hdec with h1 h2
          refine ⟨[], y :: post, ?_, by simp⟩
          rw [List.nil_append, ← h1, ← h2]
        | cons p ps =>
          have hp : p = x := by
            have := hdec
            simp only [List.cons_append, List.cons.injEq] at this
            exact this.1.symm
          have hys : ys = ps ++ b :: post := by
            have := hdec
            simp only [List.cons_append, List.cons.injEq] at this
            exact this.2
          have hbltx : hamming b goal < hamming x goal := by
            have := hpre p (by simp)
            rw [hp] at this
            exact this
          refine ⟨x :: y :: ps, post, ?_, ?_⟩
          · rw [hys]
            simp
          · intro m hm
            rcases List.mem_cons.mp hm with hmx | hm'
            · subst hmx; omega
            · rcases List.mem_cons.mp hm' with hmy | hmp
              · subst hmy; omega
              · exact hpre m (by rw [hp] at hpre ⊢; exact List.mem_cons_of_mem _ hmp)
      · intro m hm
        rcases List.mem_cons.mp hm with hmx | hm'
        · subst hmx; omega
        · rcases List.mem_cons.mp hm' with hmy | hmys
          · subst hmy; omega
          · exact hle m (List.mem_cons_of_mem _ hmys)

lemma getD_set_ne : ∀ (l : List Int) (j i : Nat) (v : Int), j ≠ i →
    (l.set j v).getD i 0 = l.getD i 0 := by
  intro l
  induction l with
  | nil => intro j i v _; simp
  | cons a t ih =>
    intro j i v h
    cases j with
    | zero =>
      cases i with
      | zero => exact absurd rfl h
      | succ i' => simp
    | succ j' =>
      cases i with
      | zero => simp
      | succ i' => simpa using ih j' i' v (by omega)

lemma count_set_aux (x : Int) : ∀ (l : List Int) (i : Nat) (v : Int),
    i < l.length →
    (l.set i v).count x + (if l.getD i 0 = x then 1 else 0)
      = l.count x + (if v = x then 1 else 0) := by
  intro l
  induction l with
  | nil => intro i v h; simp at h
  | cons a t ih =>
    intro i v h
    cases i with
    | zero =>
      simp only [List.set, List.getD_cons_zero, List.count_cons, beq_iff_eq]
      by_cases hv : v = x <;> by_cases ha : a = x <;> simp [hv, ha]
    | succ i' =>
      have hih := ih i' v (by simpa using h)
      simp only [List.set, List.getD_cons_succ, List.count_cons, beq_iff_eq]
      simp only [List.getD_eq_getElem?_getD] at hih ⊢
      by_cases ha : a = x <;> simp [ha] <;> omega

lemma count_swapPositions (state : GameState) (e i : Nat) (x : Int)
    (he : e < state.length) (hi : i < state.length) (hne : e ≠ i) :
    (swapPositions state e i).count x = state.count x := by
  unfold swapPositions
  have hA := count_set_aux x state e (state.getD i 0) he
  have hB := count_set_aux x (state.set e (state.getD i 0)) i (state.getD e 0)
    (by simpa using hi)
  rw [getD_set_ne state e i _ hne] at hB
  omega

lemma findIdx?_zero_of_mem : ∀ (l : List Int), (0 : Int) ∈ l →
    ∃ e, l.findIdx? (fun x => x == 0) = some e ∧ e < l.length ∧ l.getD e 0 = 0 := by
  intro l
  induction l with
  | nil => intro h; simp at h
  | cons a t ih =>
    intro h
    by_cases ha : a = 0
    · exact ⟨0, by simp [List.findIdx?_cons, ha], by simp, by simp [ha]⟩
    · have hmem : (0 : Int) ∈ t := by
        rcases List.mem_cons.mp h with h' | h'
        · exact absurd h'.symm ha
        · exact h'
      obtain ⟨e, hfind, helt, hget⟩ := ih hmem
      refine ⟨e + 1, ?_, by simpa using helt, by simpa using hget⟩
      rw [List.findIdx?_cons]
      simp only [beq_iff_eq, ha, if_false]
      rw [List.findIdx?_succ, hfind]
      rfl

lemma is_valid_move_frog_ne_zero {state : GameState} {i j : Int}
    {total_left total_right : Nat}
    (h : is_valid_move state i j total_left total_right = true) :
    0 ≤ i ∧ i < (state.length : Int) ∧ state.getD i.toNat 0 ≠ 0 := by
  by_cases hb : (0 ≤ i ∧ i < (state.length : Int) ∧ 0 ≤ j ∧ j < (state.length : Int))
  · by_cases hf : state.getD i.toNat 0 = 0
    · exfalso
      unfold is_valid_move at h
      rw [if_neg (not_not_intro hb), if_pos hf] at h
      exact Bool.false_ne_true h
    · exact ⟨hb.1, hb.2.1, hf⟩
  · exfalso
    unfold is_valid_move at h
    rw [if_pos hb] at h
    exact Bool.false_ne_true h

lemma getD_mem_of_lt : ∀ (l : List Int) (i : Nat), i < l.length →
    l.getD i 0 ∈ l := by
  intro l
  induction l with
  | nil => intro i h; simp at h
  | cons a t ih =>
    intro i h
    cases i with
    | zero => simp
    | succ i' =>
      simp only [List.getD_cons_succ]
      exact List.mem_cons_of_mem _ (ih i' (by simpa using h))

lemma getD_set_self : ∀ (l : List Int) (i : Nat) (v : Int), i < l.length →
    (l.set i v).getD i 0 = v := by
  intro l
  induction l with
  | nil => intro i v h; simp at h
  | cons a t ih =>
    intro i v h
    cases i with
    | zero => simp
    | succ i' => simpa using ih i' v (by simpa using h)

lemma findIdx?_of_unique_zero : ∀ (l : List Int) (e : Nat), l.count 0 = 1 →
    e < l.length → l.getD e 0 = 0 →
    l.findIdx? (fun x => x == 0) = some e := by
  intro l
  induction l with
  | nil => intro e _ h; simp at h
  | cons a t ih =>
    intro e hcount helen hget
    cases e with
    | zero =>
      simp only [List.getD_cons_zero] at hget
      simp [List.findIdx?_cons, hget]
    | succ e' =>
      simp only [List.getD_cons_succ] at hget
      have he' : e' < t.length := by simpa using helen
      have hmem : (0 : Int) ∈ t := by
        rw [← hget]
        exact getD_mem_of_lt t e' he'
      have ha : a ≠ 0 := by
        intro ha0
        rw [List.count_cons] at hcount
        simp only [ha0, beq_self_eq_true, if_true] at hcount
        have : 0 < t.count 0 := List.count_pos_iff.mpr hmem
        omega
      have hct : t.count 0 = 1 := by
        rw [List.count_cons] at hcount
        simp only [beq_iff_eq, ha, if_false] at hcount
        omega
      rw [List.findIdx?_cons]
      simp only [beq_iff_eq, ha, if_false]
      rw [List.findIdx?_succ, ih e' hct he' hget]
      rfl

lemma two_zero_indices_count : ∀ (l : List Int) (a b : Nat), a < l.length →
    b < l.length → a ≠ b → l.getD a 0 = 0 → l.getD b 0 = 0 →
    2 ≤ l.count 0 := by
  intro l
  induction l with
  | nil => intro a b ha _ _ _ _; simp at ha
  | cons c t ih =>
    intro a b ha hb hab hga hgb
    cases a with
    | zero =>
      cases b with
      | zero => exact absurd rfl hab
      | succ b' =>
        simp only [List.getD_cons_zero] at hga
        simp only [List.getD_cons_succ] at hgb
        have hmem : (0 : Int) ∈ t := by
          rw [← hgb]
          exact getD_mem_of_lt t b' (by simpa using hb)
        have : 0 < t.count 0 := List.count_pos_iff.mpr hmem
        rw [List.count_cons]
        simp only [hga, beq_self_eq_true, if_true]
        omega
    | succ a' =>
      cases b with
      | zero =>
        simp only [List.getD_cons_zero] at hgb
        simp only [List.getD_cons_succ] at hga
        have hmem : (0 : Int) ∈ t := by
          rw [← hga]
          exact getD_mem_of_lt t a' (by simpa using ha)
        have : 0 < t.count 0 := List.count_pos_iff.mpr hmem
        rw [List.count_cons]
        simp only [hgb, beq_self_eq_true, if_true]
        omega
      | succ b' =>
        simp only [List.getD_cons_succ] at hga hgb
        have := ih a' b' (by simpa using ha) (by simpa using hb)
          (by omega) hga hgb
        rw [List.count_cons]
        omega

lemma nonzero_at_other_index {state : GameState} {e i : Nat}
    (hcount : state.count 0 = 1) (hget : state.getD e 0 = 0)
    (he : e < state.length) (hi : i < state.length) (hne : i ≠ e) :
    state.getD i 0 ≠ 0 := by
  intro h0
  have := two_zero_indices_count state e i he hi (fun h => hne h.symm) hget h0
  omega

lemma getD_swapPositions_snd {state : GameState} {e i : Nat}
    (hi : i < state.length) :
    (swapPositions state e i).getD i 0 = state.getD e 0 := by
  unfold swapPositions
  exact getD_set_self _ i _ (by simpa using hi)

lemma getD_swapPositions_other {state : GameState} {e i c : Nat}
    (hce : c ≠ e) (hci : c ≠ i) :
    (swapPositions state e i).getD c 0 = state.getD c 0 := by
  unfold swapPositions
  rw [getD_set_ne _ i c _ (fun h => hci h.symm),
    getD_set_ne _ e c _ (fun h => hce h.symm)]

lemma team_split {x : Int} {tL tR : Nat} (h1 : 1 ≤ x)
    (h2 : x ≤ (tL : Int) + (tR : Int)) :
    (is_left_frog x tL = true ∧ is_right_frog x tL tR = false) ∨
    (is_left_frog x tL = false ∧ is_right_frog x tL tR = true) := by
  unfold is_left_frog is_right_frog
  rcases le_or_lt x (tL : Int) with hx | hx
  · left
    constructor
    · simp [h1, hx]
    · simp only [Bool.and_eq_false_iff, decide_eq_false_iff_not, not_lt]
      left
      exact hx
  · right
    constructor
    · simp only [Bool.and_eq_false_iff, decide_eq_false_iff_not, not_le]
      right
      exact hx
    · simp [hx, h2]

lemma is_valid_move_iff_spec (state : GameState) (total_left total_right : Nat)
    (e i : Nat)
    (hrange : ∀ x ∈ state, x ≠ 0 →
      1 ≤ x ∧ x ≤ (total_left : Int) + (total_right : Int))
    (hget_e : state.getD e 0 = 0)
    (he : e < state.length) (hi : i < state.length)
    (hdist : e = i + 1 ∨ e = i + 2 ∨ i = e + 1 ∨ i = e + 2) :
    (is_valid_move state (i : Int) (e : Int) total_left total_right = true ↔
      legal_move_spec state total_left total_right e i) := by
  have hbounds : (0 ≤ (i : Int) ∧ (i : Int) < (state.length : Int) ∧
      0 ≤ (e : Int) ∧ (e : Int) < (state.length : Int)) := by
    refine ⟨by omega, by exact_mod_cast hi, by omega, by exact_mod_cast he⟩
  unfold is_valid_move
  rw [if_neg (not_not_intro hbounds)]
  simp only [Int.toNat_natCast]
  by_cases hp : state.getD i 0 = 0
  · rw [if_pos hp]
    unfold legal_move_spec
    simp only [List.getD_eq_getElem?_getD] at hp ⊢
    simp [hp]
  rw [if_neg hp]
  have hpmem : state.getD i 0 ∈ state := getD_mem_of_lt state i hi
  have hpr := hrange _ hpmem hp
  simp only [List.getD_eq_getElem?_getD] at hp hpr hget_e ⊢
  rcases hdist with h1 | h2 | h3 | h4
  · -- e = i + 1 : a simple step toward higher indices (left team)
    subst h1
    have hd : ((i + 1 : Nat) : Int) - (i : Int) = 1 := by push_cast; ring
    rw [hd]
    rw [if_neg (by norm_num)]
    rw [if_neg (not_not_intro hget_e)]
    unfold legal_move_spec
    simp only [List.getD_eq_getElem?_getD]
    have hnoA : ¬ (i + 2 = i + 1) := by omega
    have hnoB : ¬ ((i + 1) + 2 = i) := by omega
    rcases team_split hpr.1 hpr.2 with ⟨hL, hR⟩ | ⟨hL, hR⟩
    · simp [hL, hR, hp, hnoA, hnoB]
      try omega
    · simp [hL, hR, hp, hnoA, hnoB]
      try omega
  · -- e = i + 2 : a jump toward higher indices (left team)
    subst h2
    have hd : ((i + 2 : Nat) : Int) - (i : Int) = 2 := by push_cast; ring
    rw [hd]
    rw [if_neg (by norm_num)]
    rw [if_neg (not_not_intro hget_e)]
    have hmid_idx : ((i : Int) + 1).toNat = i + 1 := by omega
    have hmid_lt : ((i : Int) + 1) < (state.length : Int) := by
      have : i + 2 < state.length := he
      omega
    have hmid_spec : (i + (i + 2)) / 2 = i + 1 := by omega
    have hmem_mid : state.getD (i + 1) 0 ∈ state :=
      getD_mem_of_lt state (i + 1) (by omega)
    unfold legal_move_spec opposite_team
    simp only [List.getD_eq_getElem?_getD] at hmem_mid ⊢
    rw [hmid_spec, hmid_idx]
    rcases team_split hpr.1 hpr.2 with ⟨hL, hR⟩ | ⟨hL, hR⟩
    · -- the moving piece is a left frog: jump is legal iff the middle
      -- holds a right frog
      by_cases hm0 : state[i + 1]?.getD 0 = 0
      · simp [hL, hR, hp, hm0, hmid_lt, is_left_frog, is_right_frog]
        try omega
      · have hmr := hrange _ hmem_mid hm0
        rcases team_split hmr.1 hmr.2 with ⟨hmL, hmR⟩ | ⟨hmL, hmR⟩
        · simp [hL, hR, hp, hm0, hmid_lt, hmL, hmR]
          try omega
        · simp [hL, hR, hp, hm0, hmid_lt, hmL, hmR]
          try omega
    · -- the moving piece is a right frog: it may not move toward higher
      -- indices at all
      simp [hL, hR, hp]
      try omega
  · -- i = e + 1 : a simple step toward lower indices (right team)
    subst h3
    have hd : ((e : Int)) - ((e + 1 : Nat) : Int) = -1 := by push_cast; ring
    rw [hd]
    rw [if_neg (by norm_num)]
    rw [if_neg (not_not_intro hget_e)]
    unfold legal_move_spec
    simp only [List.getD_eq_getElem?_getD]
    have hnoA : ¬ ((e + 1) + 2 = e) := by omega
    have hnoB : ¬ (e + 2 = e + 1) := by omega
    rcases team_split hpr.1 hpr.2 with ⟨hL, hR⟩ | ⟨hL, hR⟩
    · simp [hL, hR, hp, hnoA, hnoB]
      try omega
    · simp [hL, hR, hp, hnoA, hnoB]
      try omega
  · -- i = e + 2 : a jump toward lower indices (right team)
    subst h4
    have hd : ((e : Int)) - ((e + 2 : Nat) : Int) = -2 := by push_cast; ring
    rw [hd]
    rw [if_neg (by norm_num)]
    rw [if_neg (not_not_intro hget_e)]
    have hmid_idx : (((e + 2 : Nat) : Int) - 1).toNat = e + 1 := by omega
    have hmid_ge : (0 : Int) ≤ ((e + 2 : Nat) : Int) - 1 := by omega
    have hmid_spec : ((e + 2) + e) / 2 = e + 1 := by omega
    have hmem_mid : state.getD (e + 1) 0 ∈ state :=
      getD_mem_of_lt state (e + 1) (by omega)
    unfold legal_move_spec opposite_team
    simp only [List.getD_eq_getElem?_getD] at hmem_mid ⊢
    rw [hmid_spec, hmid_idx]
    rcases team_split hpr.1 hpr.2 with ⟨hL, hR⟩ | ⟨hL, hR⟩
    · -- the moving piece is a left frog: it may not move toward lower
      -- indices at all
      simp [hL, hR, hp]
      try omega
    · by_cases hm0 : state[e + 1]?.getD 0 = 0
      · simp [hL, hR, hp, hm0, hmid_ge, is_left_frog, is_right_frog]
        try omega
      · have hmr := hrange _ hmem_mid hm0
        rcases team_split hmr.1 hmr.2 with ⟨hmL, hmR⟩ | ⟨hmL, hmR⟩
        · simp [hL, hR, hp, hm0, hmid_ge, hmL, hmR]
          try omega
        · simp [hL, hR, hp, hm0, hmid_ge, hmL, hmR]
          try omega

/-! ## Claim theorems -/

/-- C1 (amended): for every state of the right length containing exactly
one zero, `shortest_path_length(s, s)` returns `some 1`, not 0 — the BFS
queue is seeded with `(start, 1)` and the depth of the dequeued goal is
returned, so the function counts the nodes of the path (edges + 1)
rather than the edges. -/
theorem shortest_path_length_self (total_left total_right : Nat) (s : GameState)
    (hlen : s.length = total_left + total_right + 1) (hcount : s.count 0 = 1)
    (max_depth : Nat) :
    shortest_path_length total_left total_right s s max_depth = some 1 := by
  unfold shortest_path_length
  rw [validate_ok hlen hcount]
  rw [show (100000 : Nat) = 99999 + 1 from rfl]
  rw [bfs_spl]
  simp

/-- C1 witness: the amended claim at a concrete valid state. -/
theorem shortest_path_length_self_witness :
    shortest_path_length 1 1 [1, 0, 2] [1, 0, 2] 100 = some 1 :=
  shortest_path_length_self 1 1 [1, 0, 2] rfl rfl 100

/-- C1 counterexample: on the valid state `[1, 0, 2]` with goal equal to
start, `shortest_path_length` returns `some 1`, so the claimed value 0 is
wrong. -/
theorem shortest_path_length_self_not_zero :
    shortest_path_length 1 1 [1, 0, 2] [1, 0, 2] 100 = some 1 ∧
    shortest_path_length 1 1 [1, 0, 2] [1, 0, 2] 100 ≠ some 0 := by
  constructor
  · rfl
  · decide

/-- C8 (amended): `validate_game_state` does reject a wrong length or a
zero count different from one (non-integer entries are excluded by the
type of states), but (a) the public wrappers `shortest_path_length`,
`possible_moves` and `best_next_move` catch that error internally and
return the ordinary results `None` / `[]` instead of surfacing it, and
(b) entries out of range `[1, 2N]` are accepted by validation. -/
theorem invalid_state_swallowed :
    (∀ (s : GameState) (n : Nat), s.length ≠ n ∨ s.count 0 ≠ 1 →
      ∃ e, validate_game_state s n = .error e) ∧
    (∀ (s g : GameState) (total_left total_right max_depth : Nat) (e : String),
      validate_game_state s (total_left + total_right + 1) = .error e →
      shortest_path_length total_left total_right s g max_depth = none ∧
      possible_moves total_left total_right s = []) ∧
    (∀ (s g : GameState) (e : String),
      validate_game_state s s.length = .error e → best_next_move s g = none) ∧
    validate_game_state [7, 0, 2] 3 = .ok () := by
  refine ⟨?_, ?_, ?_, by rfl⟩
  · intro s n h
    unfold validate_game_state
    by_cases hl : s.length = n
    · have hc : s.count 0 ≠ 1 := by tauto
      by_cases hm : (0 : Int) ∈ s
      · simp [hl, hm, hc]
      · simp [hl, hm]
    · simp [hl]
  · intro s g total_left total_right max_depth e h
    unfold shortest_path_length possible_moves
    rw [h]
    exact ⟨rfl, rfl⟩
  · intro s g e h
    unfold best_next_move
    by_cases hl : s.length = g.length
    · rw [h]
      simp [hl]
    · simp [hl]

/-- C8 witness: the amended claim at a concrete malformed state (two
zeros). -/
theorem invalid_state_swallowed_witness :
    shortest_path_length 1 1 [0, 0, 3] [1, 0, 2] 100 = none ∧
    possible_moves 1 1 [0, 0, 3] = [] :=
  invalid_state_swallowed.2.1 [0, 0, 3] [1, 0, 2] 1 1 100
    "State must contain exactly one empty position (0)" (by rfl)

/-- C8 counterexample: on the malformed state `[0, 0, 3]` (two zeros) the
public operations return ordinary results (`none`, `[]`) instead of
surfacing an error, and validation accepts `[7, 0, 2]` although 7 is out
of range for team sizes 1/1. -/
theorem invalid_state_ordinary_results :
    best_next_move [0, 0, 3] [1, 0, 2] = none ∧
    possible_moves 1 1 [0, 0, 3] = [] ∧
    shortest_path_length 1 1 [0, 0, 3] [1, 0, 2] 100 = none ∧
    validate_game_state [7, 0, 2] 3 = .ok () := by
  exact ⟨rfl, rfl, rfl, rfl⟩

/-- C6: for every state accepted by validation (`best_next_move`
validates both arguments, and with identical start and goal the length
check is trivial), `best_next_move(s, s)` returns `none`: the graph
always contains the start node, networkx returns the single-node path
`[s]`, and a path of length 1 produces no move. -/
theorem best_next_move_self (s : GameState) (hcount : s.count 0 = 1) :
    best_next_move s s = none := by
  unfold best_next_move
  rw [if_neg (fun h => h rfl)]
  rw [validate_ok rfl hcount]
  unfold bnm_search
  rw [if_neg (build_graph_ne_nil s _ _)]
  unfold nx_shortest_path
  rw [if_pos rfl]
  simp

/-- C6 witness: the theorem at the concrete valid state `[1, 0, 2]`. -/
theorem best_next_move_self_witness : best_next_move [1, 0, 2] [1, 0, 2] = none :=
  best_next_move_self [1, 0, 2] rfl

/-- C7: when the networkx shortest-path search over the constructed
reachability graph finds no path from start to goal and there is at
least one legal successor, `best_next_move` returns exactly the first
legal successor (in the move-generation order of `generate_neighbors`,
offsets -2, -1, 1, 2) of minimal Hamming distance to the goal: there
are a decomposition `neighbors = pre ++ b :: post` with every state in
`pre` at strictly larger Hamming distance, and no neighbor at smaller
Hamming distance.  Determinism over repeated calls is purity of the
embedded function: equal inputs give the identical result. -/
theorem best_next_move_fallback (s g : GameState)
    (hlen : s.length = g.length)
    (hcs : s.count 0 = 1) (hcg : g.count 0 = 1)
    (hnopath : nx_shortest_path
      (build_graph s ((s.length - 1) / 2) ((s.length - 1) - (s.length - 1) / 2))
      s g = none)
    (hne : generate_neighbors s ((s.length - 1) / 2)
      ((s.length - 1) - (s.length - 1) / 2) ≠ []) :
    ∃ b, best_next_move s g = some b ∧
      (∃ pre post,
        generate_neighbors s ((s.length - 1) / 2)
          ((s.length - 1) - (s.length - 1) / 2) = pre ++ b :: post ∧
        ∀ m ∈ pre, hamming b g < hamming m g) ∧
      ∀ m ∈ generate_neighbors s ((s.length - 1) / 2)
          ((s.length - 1) - (s.length - 1) / 2),
        hamming b g ≤ hamming m g := by
  obtain ⟨x, xs, hx⟩ := List.exists_cons_of_ne_nil hne
  refine ⟨xs.foldl (fun best n =>
    if hamming n g < hamming best g then n else best) x, ?_, ?_⟩
  · unfold best_next_move
    rw [if_neg (fun h => h hlen)]
    rw [validate_ok rfl hcs, validate_ok hlen.symm hcg]
    unfold bnm_search
    rw [if_neg (build_graph_ne_nil s _ _)]
    rw [hnopath, hx]
    rfl
  · have := hamming_foldl_spec g xs x _ rfl
    rw [← hx] at this
    exact this

/-- C7 witness: from `[1, 0, 2]` toward the unreachable (but
validation-accepted) goal `[5, 0, 6]`, the heuristic fallback fires and
the theorem applies; its chosen move is the first Hamming minimizer. -/
theorem best_next_move_fallback_witness :
    ∃ b, best_next_move [1, 0, 2] [5, 0, 6] = some b ∧
      (∃ pre post,
        generate_neighbors [1, 0, 2] (([1, 0, 2].length - 1) / 2)
          (([1, 0, 2].length - 1) - ([1, 0, 2].length - 1) / 2) = pre ++ b :: post ∧
        ∀ m ∈ pre, hamming b [5, 0, 6] < hamming m [5, 0, 6]) ∧
      ∀ m ∈ generate_neighbors [1, 0, 2] (([1, 0, 2].length - 1) / 2)
          (([1, 0, 2].length - 1) - ([1, 0, 2].length - 1) / 2),
        hamming b [5, 0, 6] ≤ hamming m [5, 0, 6] :=
  best_next_move_fallback [1, 0, 2] [5, 0, 6] rfl rfl rfl (by rfl) (by decide)

/-- C9: on a state with exactly one zero, every state returned by
`generate_neighbors` has the same length, the same count of every value
(so no piece value ever changes and there is still exactly one zero),
and is the input state with the zero (at the index `state.index(0)`
found by the source) swapped against exactly one non-zero piece.  The
input itself is never mutated: the source copies (`new_state = state[:]`)
before swapping, and the embedding's lists are immutable values. -/
theorem generate_neighbors_one_swap (state : GameState)
    (total_left total_right : Nat) (hcount : state.count 0 = 1) :
    ∀ n ∈ generate_neighbors state total_left total_right,
      n.length = state.length ∧
      (∀ x : Int, n.count x = state.count x) ∧
      n.count 0 = 1 ∧
      ∃ e i : Nat, state.findIdx? (fun x => x == 0) = some e ∧
        state.getD e 0 = 0 ∧ i < state.length ∧ state.getD i 0 ≠ 0 ∧
        n = swapPositions state e i := by
  intro n hn
  obtain ⟨e, hfind, helt, hget⟩ :=
    findIdx?_zero_of_mem state (mem_of_count_one hcount)
  unfold generate_neighbors at hn
  rw [hfind, List.mem_filterMap] at hn
  obtain ⟨offset, _hoff, hf⟩ := hn
  by_cases hb : (0 ≤ (e : Int) + offset ∧ (e : Int) + offset < (state.length : Int))
  case neg =>
    rw [if_neg hb] at hf
    exact absurd hf (by simp)
  rw [if_pos hb] at hf
  by_cases hv : is_valid_move state ((e : Int) + offset) (e : Int)
      total_left total_right = true
  case neg =>
    rw [if_neg hv] at hf
    exact absurd hf (by simp)
  rw [if_pos hv] at hf
  injection hf with hf
  obtain ⟨hi0, hilt, hfrog⟩ := is_valid_move_frog_ne_zero hv
  have hcast : (((e : Int) + offset).toNat : Int) = (e : Int) + offset :=
    Int.toNat_of_nonneg hb.1
  have hilen : ((e : Int) + offset).toNat < state.length := by omega
  have hne : e ≠ ((e : Int) + offset).toNat := by
    intro heq
    rw [← heq] at hfrog
    exact hfrog hget
  have hlen : (swapPositions state e ((e : Int) + offset).toNat).length
      = state.length := by
    simp [swapPositions]
  have hcnt : ∀ x : Int,
      (swapPositions state e ((e : Int) + offset).toNat).count x
        = state.count x := fun x =>
    count_swapPositions state e ((e : Int) + offset).toNat x helt hilen hne
  refine ⟨?_, ?_, ?_, e, ((e : Int) + offset).toNat,
    hfind, hget, hilen, hfrog, hf.symm⟩
  · rw [← hf]; exact hlen
  · intro x; rw [← hf]; exact hcnt x
  · rw [← hf, hcnt 0]; exact hcount

/-- C9 witness: the theorem applied to a concrete valid state and one of
its generated neighbors. -/
theorem generate_neighbors_one_swap_witness :
    [0, 1, 2] ∈ generate_neighbors [1, 0, 2] 1 1 ∧
    ([0, 1, 2] : GameState).length = ([1, 0, 2] : GameState).length ∧
    (∀ x : Int, ([0, 1, 2] : GameState).count x = ([1, 0, 2] : GameState).count x) ∧
    ([0, 1, 2] : GameState).count 0 = 1 ∧
    ∃ e i : Nat, ([1, 0, 2] : GameState).findIdx? (fun x => x == 0) = some e ∧
      ([1, 0, 2] : GameState).getD e 0 = 0 ∧ i < ([1, 0, 2] : GameState).length ∧
      ([1, 0, 2] : GameState).getD i 0 ≠ 0 ∧
      ([0, 1, 2] : GameState) = swapPositions [1, 0, 2] e i := by
  have hmem : ([0, 1, 2] : GameState) ∈ generate_neighbors [1, 0, 2] 1 1 := by decide
  exact ⟨hmem, generate_neighbors_one_swap [1, 0, 2] 1 1 rfl [0, 1, 2] hmem⟩

/-- C5: for every valid state (per the spec's data model) with empty
slot at index `e`, and every offset in {-2, -1, 1, 2} with `i = e + offset`
in bounds, the swapped state (the move of the piece at `i` into `e`) is
in `generate_neighbors` exactly when the spec-side condition holds: the
slot `i` is non-zero, the direction sign matches the mover's
team-forward direction, and a distance-2 jump crosses a piece of the
opposing team. -/
theorem generate_neighbors_mem_iff (state : GameState)
    (total_left total_right : Nat) (e i : Nat) (offset : Int)
    (hvalid : ValidState state total_left total_right)
    (hget_e : state.getD e 0 = 0) (he : e < state.length)
    (hoff : offset = -2 ∨ offset = -1 ∨ offset = 1 ∨ offset = 2)
    (hio : (i : Int) = (e : Int) + offset)
    (hi : i < state.length) :
    (swapPositions state e i ∈ generate_neighbors state total_left total_right
      ↔ legal_move_spec state total_left total_right e i) := by
  obtain ⟨_hlen, hcount, hrange⟩ := hvalid
  have hfind := findIdx?_of_unique_zero state e hcount he hget_e
  have hdist : e = i + 1 ∨ e = i + 2 ∨ i = e + 1 ∨ i = e + 2 := by
    rcases hoff with h | h | h | h <;> subst h <;> omega
  have hne_ie : i ≠ e := by
    rcases hoff with h | h | h | h <;> subst h <;> omega
  have hiff := is_valid_move_iff_spec state total_left total_right e i hrange
    hget_e he hi hdist
  constructor
  · intro hmem
    unfold generate_neighbors at hmem
    rw [hfind, List.mem_filterMap] at hmem
    obtain ⟨offset', _hoff', hf⟩ := hmem
    by_cases hb : (0 ≤ (e : Int) + offset' ∧
        (e : Int) + offset' < (state.length : Int))
    case neg =>
      rw [if_neg hb] at hf
      exact absurd hf (by simp)
    rw [if_pos hb] at hf
    by_cases hv : is_valid_move state ((e : Int) + offset') (e : Int)
        total_left total_right = true
    case neg =>
      rw [if_neg hv] at hf
      exact absurd hf (by simp)
    rw [if_pos hv] at hf
    injection hf with hf
    by_cases heq : ((e : Int) + offset').toNat = i
    · have hcast : (e : Int) + offset' = (i : Int) := by omega
      rw [hcast] at hv
      exact hiff.mp hv
    · exfalso
      have h_at_i : (swapPositions state e i).getD i 0 = state.getD e 0 :=
        getD_swapPositions_snd hi
      have h_at_i2 : (swapPositions state e ((e : Int) + offset').toNat).getD i 0
          = state.getD i 0 :=
        getD_swapPositions_other hne_ie (fun h => heq h.symm)
      rw [hf] at h_at_i2
      have hzero : state.getD i 0 = 0 := by
        rw [← h_at_i2, h_at_i]
        exact hget_e
      exact nonzero_at_other_index hcount hget_e he hi hne_ie hzero
  · intro hspec
    have hv : is_valid_move state (i : Int) (e : Int) total_left total_right
        = true := hiff.mpr hspec
    unfold generate_neighbors
    rw [hfind, List.mem_filterMap]
    refine ⟨offset, ?_, ?_⟩
    · rcases hoff with h | h | h | h <;> subst h <;> decide
    · have hb : (0 ≤ (e : Int) + offset ∧
          (e : Int) + offset < (state.length : Int)) := by
        constructor
        · rw [← hio]; omega
        · rw [← hio]; exact_mod_cast hi
      rw [if_pos hb, ← hio, if_pos hv]
      simp

/-- C5 witness: the equivalence instantiated on the concrete valid state
`[1, 0, 2]` with the step of the left frog at index 0 into the empty
slot at index 1. -/
theorem generate_neighbors_mem_iff_witness :
    (swapPositions [1, 0, 2] 1 0 ∈ generate_neighbors [1, 0, 2] 1 1
      ↔ legal_move_spec [1, 0, 2] 1 1 1 0) ∧
    swapPositions [1, 0, 2] 1 0 ∈ generate_neighbors [1, 0, 2] 1 1 := by
  constructor
  · exact generate_neighbors_mem_iff [1, 0, 2] 1 1 1 0 (-1)
      ⟨rfl, rfl, by decide⟩ rfl (by decide)
      (Or.inr (Or.inl rfl)) (by decide) (by decide)
  · decide

/-- C2: `evaluate_equation` never turns an error case into a number —
in particular never into a silent zero.  On a leftover `${B}` placeholder
(kept verbatim by `replace_placeholders_in_equation` when `B` is
unbound), on an unbound bare identifier, on division by zero, and on a
malformed expression, the result is the error-message string produced by
the `try/except` (a `SyntaxError` / `NameError` / `ZeroDivisionError`
signal), for every context; and an unbound variable never yields a
numeric value. -/
theorem evaluate_equation_error_signal :
    (∀ ctx : EvalContext, ctx.lookup "B" = none →
      replace_placeholders_in_equation "${B}" ctx = "${B}") ∧
    (∀ ctx : EvalContext,
      evaluate_equation "${B}" ctx
        = .str "Error al evaluar la ecuacion: invalid syntax") ∧
    (∀ ctx : EvalContext, ctx.lookup "B" = none →
      evaluate_equation "B" ctx
        = .str "Error al evaluar la ecuacion: name B is not defined") ∧
    (∀ ctx : EvalContext,
      evaluate_equation "1/0" ctx
        = .str "Error al evaluar la ecuacion: division by zero") ∧
    (∀ ctx : EvalContext,
      evaluate_equation "((" ctx
        = .str "Error al evaluar la ecuacion: invalid syntax") ∧
    (∀ (ctx : EvalContext) (q : ℚ), ctx.lookup "B" = none →
      evaluate_equation "B" ctx ≠ .num q) := by
  have hB : ∀ ctx : EvalContext, ctx.lookup "B" = none →
      evaluate_equation "B" ctx
        = .str "Error al evaluar la ecuacion: name B is not defined" := by
    intro ctx h
    have h' : ctx.lookup (String.mk ['B']) = none := h
    unfold evaluate_equation
    rw [show pyEvalString "B" ctx =
        (match ctx.lookup (String.mk ['B']) with
         | some v => Except.ok v
         | none => Except.error (PyErr.nameError (String.mk ['B']))) from rfl]
    rw [h']
    rfl
  refine ⟨?_, fun ctx => rfl, hB, fun ctx => rfl, fun ctx => rfl, ?_⟩
  · intro ctx h
    have h' : ctx.lookup (String.mk ['B']) = none := h
    unfold replace_placeholders_in_equation
    rw [show ("${B}" : String).data = ['$', '\x7b', 'B', '\x7d'] from rfl]
    rw [show ("${B}" : String).length + 1 = 5 from rfl]
    rw [show replaceChars ctx 5 ['$', '\x7b', 'B', '\x7d']
        = (match ctx.lookup (String.mk ['B']) with
           | some v => (pyFloatRepr v).data ++ replaceChars ctx 3 []
           | none => '$' :: '\x7b' :: (['B'] ++ '\x7d' :: replaceChars ctx 3 []))
      from rfl]
    rw [h']
    rfl
  · intro ctx q h
    rw [hB ctx h]
    simp

/-- C2 witness: the theorem applied to the empty context, where `B` is
unbound. -/
theorem evaluate_equation_error_signal_witness :
    replace_placeholders_in_equation "${B}" [] = "${B}" ∧
    evaluate_equation "B" []
      = .str "Error al evaluar la ecuacion: name B is not defined" ∧
    evaluate_equation "B" [] ≠ .num 0 :=
  ⟨evaluate_equation_error_signal.1 [] rfl,
   evaluate_equation_error_signal.2.2.1 [] rfl,
   evaluate_equation_error_signal.2.2.2.2.2 [] 0 rfl⟩

/-- C3 (exhibiting the divergence): a belief whose `evaluate_belief`
raises is indeed skipped and the decision proceeds with the remaining
beliefs (second conjunct), but a belief whose equation fails does not
raise — `evaluate_equation` returns an error-message string, which is
collected as that belief's value, and `float()` on it then raises inside
`min`, so `make_decision` fails for the whole roster even though another
belief evaluated fine (first conjunct). -/
theorem make_decision_poisoned_by_equation_error :
    make_decision [⟨"Explain", .returns (evaluate_equation "${B}" [])⟩,
      ⟨"Feedback", .returns (.num (1 / 2))⟩] = .error "Failed to make decision" ∧
    make_decision [⟨"Explain", .raises⟩, ⟨"Feedback", .returns (.num (1 / 2))⟩]
      = .ok "Feedback" := by
  exact ⟨rfl, rfl⟩

lemma lookup_normalized_values (values weights standardization : EvalContext)
    (var : String) (v : ℚ) (hv : values.lookup var = some v) :
    (normalized_values values weights standardization).lookup var
      = some (normalized_value v
          ((standardization.lookup (var ++ "_max")).getD 1)
          ((weights.lookup var).getD 1)) := by
  induction values with
  | nil => simp at hv
  | cons p ps ih =>
    obtain ⟨k, b⟩ := p
    unfold normalized_values
    simp only [List.map_cons]
    cases hbe : (var == k) with
    | false =>
      have hv' : ps.lookup var = some v := by
        rw [List.lookup_cons, hbe] at hv
        exact hv
      have hih := ih hv'
      unfold normalized_values at hih
      rw [List.lookup_cons, hbe]
      exact hih
    | true =>
      have hpe : var = k := by simpa using hbe
      have hv2 : b = v := by
        rw [List.lookup_cons, hbe] at hv
        simpa using hv
      subst hv2
      subst hpe
      rw [List.lookup_cons, hbe]

/-- C10: in the substitution context `{**weights, **normalized_values}`
of `BeliefController.evaluate_belief`, a variable present both in the
weights mapping and in the belief's metric values is bound to its
normalized weighted metric value — `(value / max if max > 0 else 0) *
weight`, with `max = standardization.get(var + "_max", 1)` — and that
binding shadows the raw weight entry. -/
theorem belief_context_shadows_weight
    (values weights standardization : EvalContext) (var : String) (v w : ℚ)
    (hval : values.lookup var = some v)
    (hw : weights.lookup var = some w) :
    belief_context values weights standardization var
      = some (normalized_value v
          ((standardization.lookup (var ++ "_max")).getD 1) w) := by
  unfold belief_context
  rw [lookup_normalized_values values weights standardization var v hval, hw]
  rfl

/-- C10 witness: the theorem at a concrete context; the equation sees
`(4 / 8) * 3 = 3/2` for `tries`, not the raw weight 3. -/
theorem belief_context_shadows_weight_witness :
    belief_context [("tries", 4)] [("tries", 3), ("w2", 7)] [("tries_max", 8)]
      "tries" = some (3 / 2) := by
  have h := belief_context_shadows_weight [("tries", 4)]
    [("tries", 3), ("w2", 7)] [("tries_max", 8)] "tries" 4 3 rfl rfl
  rw [h]
  rw [show List.lookup ("tries" ++ "_max") ([("tries_max", (8 : ℚ))]) = some 8
    from rfl]
  norm_num [normalized_value]

lemma keyLt_eq_true_iff {a b : ℚ × Nat} :
    keyLt a b = true ↔ (a.1 < b.1 ∨ (a.1 = b.1 ∧ a.2 < b.2)) := by
  unfold keyLt
  simp

lemma keyLt_eq_false_iff {a b : ℚ × Nat} :
    keyLt a b = false ↔ (b.1 < a.1 ∨ (b.1 = a.1 ∧ b.2 ≤ a.2)) := by
  unfold keyLt
  constructor
  · intro h
    simp only [Bool.or_eq_false_iff, Bool.and_eq_false_iff,
      decide_eq_false_iff_not, not_lt] at h
    obtain ⟨h1, h2⟩ := h
    rcases h2 with h2 | h2
    · rcases lt_or_eq_of_le h1 with h | h
      · exact Or.inl h
      · exact absurd h.symm h2
    · rcases lt_or_eq_of_le h1 with h | h
      · exact Or.inl h
      · exact Or.inr ⟨h, h2⟩
  · intro h
    simp only [Bool.or_eq_false_iff, Bool.and_eq_false_iff,
      decide_eq_false_iff_not, not_lt]
    rcases h with h | ⟨h1, h2⟩
    · exact ⟨le_of_lt h, Or.inl (ne_of_gt h)⟩
    · exact ⟨le_of_eq h1, Or.inr h2⟩

lemma python_min_go_spec :
    ∀ (ys : List (String × PyVal)) (best : String × PyVal) (kb : ℚ × Nat),
      decisionKey best = .ok kb →
      (∀ y ∈ ys, ∃ k, decisionKey y = .ok k) →
      ∃ r kr, python_min_go ys best kb = .ok r ∧ decisionKey r = .ok kr ∧
        (r = best ∨ r ∈ ys) ∧ keyLt kb kr = false ∧
        ∀ y k, y ∈ ys → decisionKey y = .ok k → keyLt k kr = false := by
  intro ys
  induction ys with
  | nil =>
    intro best kb hkb _
    refine ⟨best, kb, rfl, hkb, Or.inl rfl, ?_, by simp⟩
    rw [keyLt_eq_false_iff]
    exact Or.inr ⟨rfl, le_refl _⟩
  | cons y ys ih =>
    intro best kb hkb hall
    obtain ⟨ky, hky⟩ := hall y (by simp)
    have hall' : ∀ z ∈ ys, ∃ k, decisionKey z = .ok k :=
      fun z hz => hall z (by simp [hz])
    have hstep : python_min_go (y :: ys) best kb =
        if keyLt ky kb then python_min_go ys y ky
        else python_min_go ys best kb := by
      rw [show python_min_go (y :: ys) best kb = match decisionKey y with
        | Except.error e => Except.error e
        | Except.ok k => if keyLt k kb = true then python_min_go ys y k
            else python_min_go ys best kb from rfl]
      rw [hky]
    rw [hstep]
    by_cases hlt : keyLt ky kb = true
    · rw [if_pos hlt]
      obtain ⟨r, kr, hgo, hkr, hmem, hle, hforall⟩ := ih y ky hky hall'
      have hkbkr : keyLt kb kr = false := by
        rw [keyLt_eq_false_iff]
        have h1 := keyLt_eq_false_iff.mp hle
        have h2 := keyLt_eq_true_iff.mp hlt
        rcases h1 with h | ⟨ha, hb⟩ <;> rcases h2 with g | ⟨ga, gb⟩
        · exact Or.inl (lt_trans h g)
        · rw [← ga]; exact Or.inl h
        · rw [ha]; exact Or.inl g
        · exact Or.inr ⟨ha.trans ga, by omega⟩
      refine ⟨r, kr, hgo, hkr, ?_, hkbkr, ?_⟩
      · rcases hmem with h | h
        · exact Or.inr (by simp [h])
        · exact Or.inr (by simp [h])
      · intro z k hz hk
        rcases List.mem_cons.mp hz with hz | hz
        · subst hz
          rw [hky] at hk
          injection hk with hk
          subst hk
          exact hle
        · exact hforall z k hz hk
    · rw [if_neg hlt]
      have hlt' : keyLt ky kb = false := by
        cases hq : keyLt ky kb
        · rfl
        · exact absurd hq hlt
      obtain ⟨r, kr, hgo, hkr, hmem, hle, hforall⟩ := ih best kb hkb hall'
      refine ⟨r, kr, hgo, hkr, ?_, hle, ?_⟩
      · rcases hmem with h | h
        · exact Or.inl h
        · exact Or.inr (by simp [h])
      · intro z k hz hk
        rcases List.mem_cons.mp hz with hz | hz
        · subst hz
          rw [hky] at hk
          injection hk with hk
          subst hk
          have h1 := keyLt_eq_false_iff.mp hle
          have h3 := keyLt_eq_false_iff.mp hlt'
          rw [keyLt_eq_false_iff]
          rcases h1 with h | ⟨ha, hb⟩ <;> rcases h3 with g | ⟨ga, gb⟩
          · exact Or.inl (lt_trans h g)
          · rw [← ga]; exact Or.inl h
          · rw [ha]; exact Or.inl g
          · exact Or.inr ⟨ha.trans ga, le_trans hb gb⟩
        · exact hforall z k hz hk

lemma python_min_spec (evaluated : List (String × PyVal))
    (hne : evaluated ≠ [])
    (hall : ∀ y ∈ evaluated, ∃ k, decisionKey y = .ok k) :
    ∃ r kr, python_min evaluated = .ok r ∧ decisionKey r = .ok kr ∧
      r ∈ evaluated ∧
      ∀ y k, y ∈ evaluated → decisionKey y = .ok k → keyLt k kr = false := by
  obtain ⟨x, xs, hx⟩ := List.exists_cons_of_ne_nil hne
  subst hx
  obtain ⟨kx, hkx⟩ := hall x (by simp)
  have hstep : python_min (x :: xs) = python_min_go xs x kx := by
    rw [python_min.eq_2, hkx]
  obtain ⟨r, kr, hgo, hkr, hmem, hle, hforall⟩ :=
    python_min_go_spec xs x kx hkx (fun z hz => hall z (by simp [hz]))
  refine ⟨r, kr, by rw [hstep]; exact hgo, hkr, ?_, ?_⟩
  · rcases hmem with h | h
    · simp [h]
    · simp [h]
  · intro y k hy hk
    rcases List.mem_cons.mp hy with hy | hy
    · subst hy
      rw [hkx] at hk
      injection hk with hk
      subst hk
      exact hle
    · exact hforall y k hy hk

/-- C4: on a roster whose surviving evaluations are all numeric (and at
least one belief evaluates), `make_decision` returns a belief of maximal
score, and any belief tying the winner's exact score has priority number
at least the winner's in the fixed order Demonstrate > Ask > Explain >
Advice > Feedback (`min` over the key `(-float(value), priority)`);
determinism over repeated invocations is purity of the embedded
function.  The second conjunct is the spec's end-to-end example:
`{Feedback: 0.4, Advice: 0.4, Demonstrate: 0.8}` selects `Demonstrate`. -/
theorem make_decision_highest_priority :
    (∀ beliefs : List BeliefEntry,
      (∃ b ∈ beliefs, b.outcome ≠ .raises) →
      (∀ b ∈ beliefs, ∀ v, b.outcome = .returns v → ∃ q, v = PyVal.num q) →
      ∃ w v, make_decision beliefs = .ok w ∧
        BeliefEntry.mk w (.returns (.num v)) ∈ beliefs ∧
        ∀ b q, b ∈ beliefs → b.outcome = .returns (.num q) →
          q < v ∨ (q = v ∧ priority w ≤ priority b.name)) ∧
    make_decision [⟨"Feedback", .returns (.num (2 / 5))⟩,
      ⟨"Advice", .returns (.num (2 / 5))⟩,
      ⟨"Demonstrate", .returns (.num (4 / 5))⟩] = .ok "Demonstrate" := by
  have hgen : ∀ beliefs : List BeliefEntry,
      (∃ b ∈ beliefs, b.outcome ≠ .raises) →
      (∀ b ∈ beliefs, ∀ v, b.outcome = .returns v → ∃ q, v = PyVal.num q) →
      ∃ w v, make_decision beliefs = .ok w ∧
        BeliefEntry.mk w (.returns (.num v)) ∈ beliefs ∧
        ∀ b q, b ∈ beliefs → b.outcome = .returns (.num q) →
          q < v ∨ (q = v ∧ priority w ≤ priority b.name) := by
    intro beliefs hex hnum
    obtain ⟨b0, hb0mem, hb0⟩ := hex
    obtain ⟨v0, hv0⟩ : ∃ v, b0.outcome = .returns v := by
      cases hout : b0.outcome
      · exact absurd hout hb0
      · exact ⟨_, rfl⟩
    have hmem0 : (b0.name, v0) ∈ beliefs.filterMap (fun b =>
        match b.outcome with
        | .raises => none
        | .returns v => some (b.name, v)) :=
      List.mem_filterMap.mpr ⟨b0, hb0mem, by rw [hv0]⟩
    have hne : beliefs.filterMap (fun b =>
        match b.outcome with
        | .raises => none
        | .returns v => some (b.name, v)) ≠ [] := by
      intro h
      rw [h] at hmem0
      exact absurd hmem0 (List.not_mem_nil _)
    have hall : ∀ y ∈ beliefs.filterMap (fun b =>
        match b.outcome with
        | .raises => none
        | .returns v => some (b.name, v)), ∃ k, decisionKey y = .ok k := by
      intro y hy
      obtain ⟨b, hbmem, hbf⟩ := List.mem_filterMap.mp hy
      cases hout : b.outcome with
      | raises => rw [hout] at hbf; exact absurd hbf (by simp)
      | returns v =>
        obtain ⟨q, hq⟩ := hnum b hbmem v hout
        subst hq
        rw [hout] at hbf
        simp only [Option.some.injEq] at hbf
        refine ⟨(-q, priority b.name), ?_⟩
        rw [← hbf]
        rfl
    obtain ⟨r, kr, hmin, hkr, hrmem, hforall⟩ := python_min_spec _ hne hall
    obtain ⟨br, hbrmem, hbrf⟩ := List.mem_filterMap.mp hrmem
    cases hout : br.outcome with
    | raises => rw [hout] at hbrf; exact absurd hbrf (by simp)
    | returns v =>
      obtain ⟨q, hq⟩ := hnum br hbrmem v hout
      subst hq
      rw [hout] at hbrf
      simp only [Option.some.injEq] at hbrf
      refine ⟨r.1, q, ?_, ?_, ?_⟩
      · unfold make_decision evaluate_beliefs
        rw [if_neg hne]
        show (match python_min (beliefs.filterMap (fun b =>
            match b.outcome with
            | .raises => none
            | .returns v => some (b.name, v))) with
          | Except.error _ => Except.error "Failed to make decision"
          | Except.ok best => Except.ok best.1) = Except.ok r.1
        rw [hmin]
      · have hbr_eq : br = BeliefEntry.mk r.1 (.returns (.num q)) := by
          cases br with
          | mk nm out =>
            simp only at hout
            subst hout
            have : nm = r.1 := by rw [← hbrf]
            rw [this]
        rw [← hbr_eq]
        exact hbrmem
      · intro b qb hbmem hbout
        have hymem : (b.name, PyVal.num qb) ∈ beliefs.filterMap (fun b =>
            match b.outcome with
            | .raises => none
            | .returns v => some (b.name, v)) :=
          List.mem_filterMap.mpr ⟨b, hbmem, by rw [hbout]⟩
        have hkey : decisionKey (b.name, PyVal.num qb)
            = .ok (-qb, priority b.name) := rfl
        have hlt := hforall _ _ hymem hkey
        have hkr' : kr = (-q, priority r.1) := by
          rw [← hbrf] at hkr
          have : decisionKey (br.name, PyVal.num q)
              = .ok (-q, priority br.name) := rfl
          rw [this] at hkr
          injection hkr with hkr
          rw [← hkr, ← hbrf]
        rw [hkr'] at hlt
        rw [keyLt_eq_false_iff] at hlt
        rcases hlt with h | ⟨h1, h2⟩
        · left
          simpa using h
        · right
          constructor
          · have : q = qb := by simpa using h1
            exact this.symm
          · exact h2
  refine ⟨hgen, ?_⟩
  obtain ⟨w, v, hmk, hmem, hprop⟩ := hgen
    [⟨"Feedback", .returns (.num (2 / 5))⟩, ⟨"Advice", .returns (.num (2 / 5))⟩,
     ⟨"Demonstrate", .returns (.num (4 / 5))⟩]
    ⟨⟨"Feedback", .returns (.num (2 / 5))⟩, by simp, by simp⟩
    (by
      intro b hb v hv
      simp only [List.mem_cons, List.not_mem_nil, or_false] at hb
      rcases hb with rfl | rfl | rfl <;>
        · simp only at hv
          injection hv with hv
          exact ⟨_, hv.symm⟩)
  have hD := hprop ⟨"Demonstrate", .returns (.num (4 / 5))⟩ (4 / 5) (by simp) rfl
  simp only [List.mem_cons, List.not_mem_nil, or_false] at hmem
  rcases hmem with h | h | h
  · have hv25 : v = 2 / 5 := by
      have h2 := congrArg BeliefEntry.outcome h
      simp only at h2
      injection h2 with h2
      injection h2 with h2
    rw [hv25] at hD
    rcases hD with h' | ⟨h', -⟩ <;> norm_num at h'
  · have hv25 : v = 2 / 5 := by
      have h2 := congrArg BeliefEntry.outcome h
      simp only at h2
      injection h2 with h2
      injection h2 with h2
    rw [hv25] at hD
    rcases hD with h' | ⟨h', -⟩ <;> norm_num at h'
  · have hw : w = "Demonstrate" := congrArg BeliefEntry.name h
    rw [hw] at hmk
    exact hmk

/-- C4 witness: the general selection property applied to the concrete
example roster, with both hypotheses discharged there. -/
theorem make_decision_highest_priority_witness :
    ∃ w v, make_decision [⟨"Feedback", .returns (.num (2 / 5))⟩,
        ⟨"Advice", .returns (.num (2 / 5))⟩,
        ⟨"Demonstrate", .returns (.num (4 / 5))⟩] = .ok w ∧
      BeliefEntry.mk w (.returns (.num v)) ∈
        [⟨"Feedback", .returns (.num (2 / 5))⟩,
         ⟨"Advice", .returns (.num (2 / 5))⟩,
         ⟨"Demonstrate", .returns (.num (4 / 5))⟩] ∧
      ∀ b q, b ∈ [(⟨"Feedback", .returns (.num (2 / 5))⟩ : BeliefEntry),
          ⟨"Advice", .returns (.num (2 / 5))⟩,
          ⟨"Demonstrate", .returns (.num (4 / 5))⟩] →
        b.outcome = .returns (.num q) →
        q < v ∨ (q = v ∧ priority w ≤ priority b.name) :=
  make_decision_highest_priority.1 _
    ⟨⟨"Feedback", .returns (.num (2 / 5))⟩, by simp, by simp⟩
    (by
      intro b hb v hv
      simp only [List.mem_cons, List.not_mem_nil, or_false] at hb
      rcases hb with rfl | rfl | rfl <;>
        · simp only at hv
          injection hv with hv
          exact ⟨_, hv.symm⟩)

end MAGame
